import Mathlib

/-!
Verification development for the shpeegle-reader EPUB core
(`src/components/Reader.jsx`, `src/components/Library.jsx`).

The development shallowly embeds the pure core of the reader:

* the path helpers `normalizePath`, `dirOf`, `resolveHref`;
* the package parser (manifest build, spine build);
* the navigation parser (NCX point trees, EPUB3 nav ordered lists, and the
  NCX-first precedence in `parseStructure` / `parseEpub`);
* the content normalizer (`loadChapter` in the per-chapter reader,
  `loadSpineItem` in the whole-book reader): stylesheet stripping, inline
  style-attribute stripping, image inlining;
* the per-chapter navigation handler `goToHref`.

Browser APIs are modelled as follows.  The DOM is the inductive `Node`
(element with tag, attribute list and children, or text).  An archive entry
(`Entry`) carries its raw bytes and, for markup entries, the tree the
two-stage DOMParser pipeline produces for it (the parser itself is a browser
API and is abstracted; the emptiness test `!raw` used by the source is the
emptiness of the byte content).  `FileReader.readAsDataURL` over a JSZip blob
is modelled by `dataUrl`: a base64 data URL of the entry bytes.  JavaScript
string primitives that the source uses (`split('/')` composed with
`filter(Boolean)`, `lastIndexOf`-based directory extraction, `startsWith`,
`split('#')[0]`, `trim`, `includes`) are given executable character-level
definitions so that every theorem can be evaluated on concrete input.
-/

/-! ### JavaScript string primitives -/

/-- Model of `pre` being a leading run of `s`, both given as character
lists; this is the character-level content of `String.prototype.startsWith`. -/
def leadsWith : List Char → List Char → Bool
  | [], _ => true
  | _ :: _, [] => false
  | p :: ps, c :: cs => p == c && leadsWith ps cs

/-- Model of `s.startsWith(pre)`. -/
def strStartsWith (s pre : String) : Bool :=
  leadsWith pre.data s.data

/-- Helper for `hasRun`: does `pat` occur as a contiguous run of `s`? -/
def hasRun : List Char → List Char → Bool
  | pat, [] => pat.isEmpty
  | pat, c :: cs => leadsWith pat (c :: cs) || hasRun pat cs

/-- Model of `s.includes(pat)` (substring containment). -/
def containsSubstr (s pat : String) : Bool :=
  hasRun pat.data s.data

/-- Model of `href.split('#')[0]`: the text before the first `#`. -/
def stripFragment (s : String) : String :=
  String.mk (s.data.takeWhile (fun c => !(c == '#')))

/-- Model of `String.prototype.trim`: drop whitespace from both ends. -/
def trimStr (s : String) : String :=
  String.mk (((s.data.dropWhile Char.isWhitespace).reverse.dropWhile
    Char.isWhitespace).reverse)

/-- Character-level worker for `segs`: splits on `'/'` while dropping the
empty pieces, which is exactly `path.split('/').filter(Boolean)` fused into
one pass (`acc` holds the characters of the current piece, reversed). -/
def segsAux : List Char → List Char → List String
  | [], acc => if acc.isEmpty then [] else [String.mk acc.reverse]
  | c :: rest, acc =>
    if c == '/' then
      if acc.isEmpty then segsAux rest [] else String.mk acc.reverse :: segsAux rest []
    else segsAux rest (c :: acc)

/-- Model of `path.split('/').filter(Boolean)` from `normalizePath`. -/
def segs (s : String) : List String :=
  segsAux s.data []

/-- Character-level worker for `splitSlash`: splits on `'/'` keeping empty
pieces, exactly `s.split('/')`. -/
def splitAllAux : List Char → List Char → List String
  | [], acc => [String.mk acc.reverse]
  | c :: rest, acc =>
    if c == '/' then String.mk acc.reverse :: splitAllAux rest []
    else splitAllAux rest (c :: acc)

/-- Model of `s.split('/')` (empty pieces kept). -/
def splitSlash (s : String) : List String :=
  splitAllAux s.data []

/-- Model of `stack.join('/')`. -/
def joinSegs : List String → String
  | [] => ""
  | [s] => s
  | s :: s' :: rest => s ++ "/" ++ joinSegs (s' :: rest)

/-! ### Path resolver (source: `normalizePath`, `dirOf`, `resolveHref`) -/

/-- One iteration of the `normalizePath` stack loop: `..` pops the stack
(`Array.prototype.pop` on an empty array is a no-op), `.` is dropped, and any
other segment is pushed. -/
def normStep (st : List String) (p : String) : List String :=
  if p == ".." then st.dropLast
  else if p == "." then st
  else st ++ [p]

/-- The stack pass of `normalizePath` over an already split segment list. -/
def normSegs (parts : List String) : List String :=
  parts.foldl normStep []

/-- Source `normalizePath(path)`: split on `/` dropping empty segments, run
the `..` / `.` stack pass, join with `/`. -/
def normalizePath (path : String) : String :=
  joinSegs (normSegs (segs path))

/-- Character-level content of `dirOf`: everything up to and including the
last `'/'` (empty when there is no slash), matching
`path.substring(0, path.lastIndexOf('/') + 1)`. -/
def dirOfData (l : List Char) : List Char :=
  ((l.reverse.dropWhile (fun c => !(c == '/'))).reverse)

/-- Source `dirOf(path)`. -/
def dirOf (s : String) : String :=
  String.mk (dirOfData s.data)

/-- Source `resolveHref(basePath, href)`: empty references give the empty
string, a reference beginning with `/` is normalized on its own, and any
other reference is normalized against the directory of the base path. -/
def resolveHref (basePath href : String) : String :=
  if href == "" then ""
  else if strStartsWith href "/" then normalizePath href
  else normalizePath (dirOf basePath ++ href)

/-! ### Path resolver, spec-side rendering (for the refinement claim)

The following definitions transcribe the words of the specification of the
path resolver: split on `/`, drop empty and `.` segments, pop the previous
retained segment on `..` where popping past the root is a no-op, treat a
leading `/` as container-rooted.  They are compared with the definitions
taken from the source above. -/

/-- Pop the previous retained segment; popping past the root is a no-op. -/
def popLast : List String → List String
  | [] => []
  | [_] => []
  | x :: y :: rest => x :: popLast (y :: rest)

/-- The normalization algorithm as the specification words it, over the raw
split (empty segments are dropped here, during the pass). -/
def specNormAux : List String → List String → List String
  | st, [] => st
  | st, p :: rest =>
    if p == "" then specNormAux st rest
    else if p == "." then specNormAux st rest
    else if p == ".." then specNormAux (popLast st) rest
    else specNormAux (st ++ [p]) rest

/-- Spec-side normalization: split on `/`, run the pass, join. -/
def normalizePathSpec (s : String) : String :=
  joinSegs (specNormAux [] (splitSlash s))

/-- Spec-side resolution: a reference beginning with `/` is container-rooted
before normalization; otherwise it is resolved against the directory of the
base path (text up to and including the last `/`). -/
def resolveHrefSpec (basePath href : String) : String :=
  if strStartsWith href "/" then normalizePathSpec href
  else normalizePathSpec (dirOf basePath ++ href)

/-! ### DOM model -/

/-- A parsed markup node: an element with tag name, attribute list and
children, or a text node. -/
inductive Node where
  | elem (tag : String) (attrs : List (String × String)) (children : List Node)
  | text (s : String)

/-- The attribute list of a node (empty for text nodes). -/
def attrsOf : Node → List (String × String)
  | .elem _ a _ => a
  | .text _ => []

/-- The children of a node (empty for text nodes). -/
def childrenOf : Node → List Node
  | .elem _ _ cs => cs
  | .text _ => []

/-- Is the node an element with the given tag name? -/
def isTag (t : String) : Node → Bool
  | .elem tg _ _ => tg == t
  | .text _ => false

/-- Model of `getAttribute`: the value of the first attribute with the given
name, `none` when absent. -/
def getAttrL (a : List (String × String)) (k : String) : Option String :=
  (a.find? (fun p => p.1 == k)).map (fun p => p.2)

/-- Model of `removeAttribute`: drop every attribute with the given name. -/
def removeAttrL (a : List (String × String)) (k : String) : List (String × String) :=
  a.filter (fun p => !(p.1 == k))

/-- Model of `setAttribute`: replace the value of the attribute in place
when it exists (attribute names are unique in the DOM, so replacing the
first binding suffices), append it otherwise. -/
def setAttrL : List (String × String) → String → String → List (String × String)
  | [], k, v => [(k, v)]
  | p :: rest, k, v =>
    if p.1 == k then (k, v) :: rest else p :: setAttrL rest k v

mutual
/-- Model of `textContent`: the concatenated text of the subtree. -/
def textContent : Node → String
  | .text s => s
  | .elem _ _ cs => textContentList cs
def textContentList : List Node → String
  | [] => ""
  | c :: rest => textContent c ++ textContentList rest
end

mutual
/-- Model of `querySelector` for a node predicate, searching the node itself
and its descendants in document order (the form used on whole documents). -/
def qselIncl (p : Node → Bool) : Node → Option Node
  | .text s => if p (.text s) then some (.text s) else none
  | .elem t a cs =>
    if p (.elem t a cs) then some (.elem t a cs) else qselInclList p cs
def qselInclList (p : Node → Bool) : List Node → Option Node
  | [] => none
  | c :: rest =>
    match qselIncl p c with
    | some r => some r
    | none => qselInclList p rest
end

/-- First direct child with a given tag (`:scope > tag` selector). -/
def firstChildWithTag (t : String) (cs : List Node) : Option Node :=
  cs.find? (isTag t)

mutual
/-- Collector for the `navMap > navPoint` selector: every element named
`navPoint` whose parent element is named `navMap`, in document order
(`parent` is the tag of the enclosing element, empty at the document root). -/
def collectNavMapPoints (parent : String) : Node → List Node
  | .text _ => []
  | .elem tg a cs =>
    (if tg == "navPoint" && parent == "navMap" then [Node.elem tg a cs] else [])
      ++ collectNavMapPointsList tg cs
def collectNavMapPointsList (parent : String) : List Node → List Node
  | [] => []
  | c :: rest => collectNavMapPoints parent c ++ collectNavMapPointsList parent rest
end

/-- The `navMap > navPoint` query over a whole parsed NCX document. -/
def navMapNavPoints (doc : Node) : List Node :=
  collectNavMapPoints "" doc

/-! ### Package parser (source: `parseStructure` / `parseEpub`) -/

/-- A manifest entry: declared href, media type, properties, and the href
resolved against the package document path. -/
structure ManItem where
  href : String
  mediaType : String
  properties : String
  fullPath : String
deriving DecidableEq

/-- The manifest, as the JavaScript object `manifest`: an association list
with unique ids, in insertion order. -/
abbrev Manifest := List (String × ManItem)

/-- Model of `manifest[id] = item`: replace in place when the id exists,
append otherwise (JavaScript object insertion semantics). -/
def manifestInsert (m : Manifest) (id : String) (it : ManItem) : Manifest :=
  if (List.any m (fun p => p.1 == id)) then
    List.map (fun (p : String × ManItem) => if p.1 == id then (id, it) else p) m
  else m ++ [(id, it)]

/-- Worker for `buildManifest`, threading the object built so far. -/
def buildManifestAux (opfPath : String) (m : Manifest) :
    List (String × String × String × String) → Manifest
  | [] => m
  | (id, href, mt, props) :: rest =>
    buildManifestAux opfPath
      (manifestInsert m id
        { href := href, mediaType := mt, properties := props,
          fullPath := resolveHref opfPath href }) rest

/-- Model of the manifest build loop: each `<item>` (id, href, media-type,
properties), in document order, is resolved against the package document
path and stored under its id. -/
def buildManifest (opfPath : String)
    (items : List (String × String × String × String)) : Manifest :=
  buildManifestAux opfPath [] items

/-- Model of `manifest[idref]` lookup. -/
def mlookup (m : Manifest) (id : String) : Option ManItem :=
  (List.find? (fun p => p.1 == id) m).map (fun p => p.2)

/-- Model of the spine build loop: each `<itemref>` idref is looked up in
the manifest and pushed when known, silently skipped otherwise. -/
def parseSpine (m : Manifest) : List String → List (String × ManItem)
  | [] => []
  | id :: rest =>
    match mlookup m id with
    | some it => (id, it) :: parseSpine m rest
    | none => parseSpine m rest

/-! ### Archive model -/

/-- An archive entry: its raw byte content, and the node tree that the
two-stage DOMParser pipeline (strict XHTML, then permissive HTML) produces
when the entry is read as markup.  The parser itself is a browser API and is
abstracted into the `parsed` field. -/
structure Entry where
  bytes : List Nat
  parsed : Node

/-- An archive: named entries, unique names, as produced by JSZip. -/
abbrev Archive := List (String × Entry)

/-- Model of `zip.file(path)`: the entry named `path`, if any. -/
def zfind (z : Archive) (path : String) : Option Entry :=
  (List.find? (fun p => p.1 == path) z).map (fun p => p.2)

/-- The base64 alphabet. -/
def b64Alphabet : List Char :=
  "ABCDEFGHIJKLMNOPQRSTUVWXYZabcdefghijklmnopqrstuvwxyz0123456789+/".data

/-- One base64 digit. -/
def b64Char (n : Nat) : Char :=
  b64Alphabet.getD n 'A'

/-- Base64 encoding of a byte list, with padding. -/
def encodeB64 : List Nat → List Char
  | [] => []
  | [a] => [b64Char (a / 4 % 64), b64Char (a % 4 * 16), '=', '=']
  | [a, b] =>
    [b64Char (a / 4 % 64), b64Char (a % 4 * 16 + b / 16 % 16), b64Char (b % 16 * 4), '=']
  | a :: b :: c :: rest =>
    b64Char (a / 4 % 64) :: b64Char (a % 4 * 16 + b / 16 % 16) ::
      b64Char (b % 16 * 4 + c / 64 % 4) :: b64Char (c % 64) :: encodeB64 rest

/-- Model of `blobToDataUrl` over a JSZip blob: `FileReader.readAsDataURL`
yields a base64 data URL of the blob bytes. -/
def dataUrl (bytes : List Nat) : String :=
  "data:application/octet-stream;base64," ++ String.mk (encodeB64 bytes)

/-! ### Navigation parser (source: `parseNcxPoints`, `parseNavOl`, TOC part
of `parseStructure` / `parseEpub`) -/

/-- A table-of-contents node: label, resolved target href, children. -/
inductive NavNode where
  | mk (label : String) (href : String) (subitems : List NavNode)

/-- The label of a navigation node. -/
def NavNode.label : NavNode → String
  | .mk l _ _ => l

/-- The target href of a navigation node. -/
def NavNode.href : NavNode → String
  | .mk _ h _ => h

/-- The children of a navigation node. -/
def NavNode.subitems : NavNode → List NavNode
  | .mk _ _ s => s

/-- Model of `np.querySelector(':scope > navLabel > text')?.textContent?.trim()
|| ''`: the trimmed text of the first `text` child of the first `navLabel`
child that has one, defaulted to the empty string. -/
def ncxLabel (np : Node) : String :=
  match ((childrenOf np).filterMap
      (fun c => if isTag "navLabel" c then firstChildWithTag "text" (childrenOf c)
        else none)).head? with
  | some t => trimStr (textContent t)
  | none => ""

/-- Model of `np.querySelector(':scope > content')?.getAttribute('src') || ''`. -/
def ncxSrc (np : Node) : String :=
  match firstChildWithTag "content" (childrenOf np) with
  | some c => (getAttrL (attrsOf c) "src").getD ""
  | none => ""

mutual
/-- Model of the per-point body of `parseNcxPoints`: label from the first
`navLabel > text` child, target resolved against the NCX path, children from
the direct `navPoint` children. -/
def parseNcxPoint (path : String) : Node → NavNode
  | .text _ => NavNode.mk "" (resolveHref path "") []
  | .elem tg a cs =>
    NavNode.mk (ncxLabel (.elem tg a cs)) (resolveHref path (ncxSrc (.elem tg a cs)))
      (parseNcxKids path cs)
/-- The recursion of `parseNcxPoints` over the `:scope > navPoint` children. -/
def parseNcxKids (path : String) : List Node → List NavNode
  | [] => []
  | c :: rest =>
    if isTag "navPoint" c then parseNcxPoint path c :: parseNcxKids path rest
    else parseNcxKids path rest
end

/-- Source `parseNcxPoints(points, ncxPath)` over an already queried point
list: one navigation node per point. -/
def parseNcxPoints (pts : List Node) (path : String) : List NavNode :=
  pts.map (parseNcxPoint path)

mutual
/-- Model of `parseNavOl(ol, navPath)` on an `ol` element: walk the direct
`li` children. -/
def parseNavOlNode (path : String) : Node → List NavNode
  | .text _ => []
  | .elem _ _ cs => parseNavLis path cs
/-- The `:scope > li` walk of `parseNavOl`: an `li` without a direct `a`
child is skipped; otherwise label and href come from that `a` and the
children from the first direct `ol` child. -/
def parseNavLis (path : String) : List Node → List NavNode
  | [] => []
  | c :: rest =>
    match c with
    | .text _ => parseNavLis path rest
    | .elem tg _ ccs =>
      if tg == "li" then
        match firstChildWithTag "a" ccs with
        | some a =>
          NavNode.mk (trimStr (textContent a))
              (resolveHref path ((getAttrL (attrsOf a) "href").getD ""))
              (parseFirstOl path ccs)
            :: parseNavLis path rest
        | none => parseNavLis path rest
      else parseNavLis path rest
/-- Model of `li.querySelector(':scope > ol')` followed by the recursive
`parseNavOl` call (`[]` when there is no direct `ol` child). -/
def parseFirstOl (path : String) : List Node → List NavNode
  | [] => []
  | c :: rest =>
    if isTag "ol" c then parseNavOlNode path c else parseFirstOl path rest
end

/-- Model of finding the NCX manifest entry (`mediaType ===
'application/x-dtbncx+xml'`) among the manifest values. -/
def findNcxItem (mvals : List ManItem) : Option ManItem :=
  mvals.find? (fun m => m.mediaType == "application/x-dtbncx+xml")

/-- Model of finding the EPUB3 nav manifest entry
(`m.properties.includes('nav')`) among the manifest values. -/
def findNavItem (mvals : List ManItem) : Option ManItem :=
  mvals.find? (fun m => containsSubstr m.properties "nav")

/-- Model of `navDoc.querySelector('nav[epub\\:type="toc"]') ||
navDoc.querySelector('nav')`. -/
def findNavEl (doc : Node) : Option Node :=
  match qselIncl
      (fun n => isTag "nav" n && (getAttrL (attrsOf n) "epub:type" == some "toc")) doc with
  | some n => some n
  | none => qselIncl (isTag "nav") doc

/-- The NCX arm of the TOC build: find the NCX item, read it, and parse its
`navMap > navPoint` tree (empty on a missing or empty entry). -/
def parseTocNcx (read : String → Option Entry) (mvals : List ManItem) : List NavNode :=
  match findNcxItem mvals with
  | some it =>
    match read it.fullPath with
    | some e =>
      if e.bytes.isEmpty then []
      else parseNcxPoints (navMapNavPoints e.parsed) it.fullPath
    | none => []
  | none => []

/-- The EPUB3 nav arm of the TOC build: find the nav item, read it, locate
the `nav` element and parse its first `ol` descendant. -/
def parseTocNav (read : String → Option Entry) (mvals : List ManItem) : List NavNode :=
  match findNavItem mvals with
  | some it =>
    match read it.fullPath with
    | some e =>
      if e.bytes.isEmpty then []
      else
        match findNavEl e.parsed with
        | some navEl =>
          match qselInclList (isTag "ol") (childrenOf navEl) with
          | some ol => parseNavOlNode it.fullPath ol
          | none => []
        | none => []
    | none => []
  | none => []

/-- The TOC part of `parseStructure` / `parseEpub`: try NCX first, and only
when that yields no entries consult the EPUB3 nav document. -/
def parseToc (read : String → Option Entry) (mvals : List ManItem) : List NavNode :=
  if (parseTocNcx read mvals).isEmpty then parseTocNav read mvals
  else parseTocNcx read mvals

/-! ### Content normalizer (source: `loadChapter` / `loadSpineItem`) -/

/-- Is the node one of the removed stylesheet carriers, matching the
`'style, link[rel="stylesheet"]'` selector? -/
def isStyleNode : Node → Bool
  | .elem t a _ => t == "style" || (t == "link" && getAttrL a "rel" == some "stylesheet")
  | .text _ => false

mutual
/-- Model of the removal loop over `doc.querySelectorAll('style,
link[rel="stylesheet"]')`: every matching descendant is removed. -/
def stripStyleEls : Node → Node
  | .text s => .text s
  | .elem t a cs => .elem t a (stripStyleElsList cs)
def stripStyleElsList : List Node → List Node
  | [] => []
  | c :: rest =>
    if isStyleNode c then stripStyleElsList rest
    else stripStyleEls c :: stripStyleElsList rest
end

mutual
/-- Model of the removal loop over `body.querySelectorAll('[style]')`: the
`style` attribute is removed from every node of the subtree. -/
def stripStyleAttrDeep : Node → Node
  | .text s => .text s
  | .elem t a cs => .elem t (removeAttrL a "style") (stripStyleAttrDeepList cs)
def stripStyleAttrDeepList : List Node → List Node
  | [] => []
  | c :: rest => stripStyleAttrDeep c :: stripStyleAttrDeepList rest
end

/-- The `src` rewrite of one `img` element: skip a missing, empty or
`data:` reference; otherwise resolve `itemDir + src` with `normalizePath`,
look it up, and on success replace `src` with the data URL of the entry
bytes (a missing entry leaves the attributes untouched). -/
def rewriteImgAttrs (read : String → Option Entry) (itemDir : String)
    (a : List (String × String)) : List (String × String) :=
  match getAttrL a "src" with
  | none => a
  | some src =>
    if src == "" || strStartsWith src "data:" then a
    else
      match read (normalizePath (itemDir ++ src)) with
      | some e => setAttrL a "src" (dataUrl e.bytes)
      | none => a

/-- Model of `img.getAttribute('xlink:href') || img.getAttribute('href')`
(the JavaScript `||` falls through on the empty string). -/
def primaryRef (a : List (String × String)) : Option String :=
  match getAttrL a "xlink:href" with
  | some s => if s == "" then getAttrL a "href" else some s
  | none => getAttrL a "href"

/-- The rewrite of one SVG `image` element: same guards as for `img`, on the
primary reference; on success the data URL is written to both `xlink:href`
and `href`. -/
def rewriteImageAttrs (read : String → Option Entry) (itemDir : String)
    (a : List (String × String)) : List (String × String) :=
  match primaryRef a with
  | none => a
  | some href =>
    if href == "" || strStartsWith href "data:" then a
    else
      match read (normalizePath (itemDir ++ href)) with
      | some e => setAttrL (setAttrL a "xlink:href" (dataUrl e.bytes)) "href" (dataUrl e.bytes)
      | none => a

/-- The attribute rewrite applied to an element of a given tag: only `img`
and SVG `image` elements are touched by the image-inlining loops. -/
def rewriteAttrsFor (read : String → Option Entry) (itemDir : String)
    (t : String) (a : List (String × String)) : List (String × String) :=
  if t == "img" then rewriteImgAttrs read itemDir a
  else if t == "image" then rewriteImageAttrs read itemDir a
  else a

mutual
/-- The image-inlining passes over the body subtree: each `img` and each SVG
`image` element is rewritten independently (the queried lists are static and
the loops only touch the attributes of the element at hand, so the two
source loops amount to one node-wise map). -/
def rewriteNode (read : String → Option Entry) (itemDir : String) : Node → Node
  | .text s => .text s
  | .elem t a cs =>
    .elem t (rewriteAttrsFor read itemDir t a) (rewriteNodeList read itemDir cs)
def rewriteNodeList (read : String → Option Entry) (itemDir : String) :
    List Node → List Node
  | [] => []
  | c :: rest => rewriteNode read itemDir c :: rewriteNodeList read itemDir rest
end

/-- The normalization pipeline on a parsed chapter document: locate the
content root (`body`, or the document root), remove the stylesheet carriers,
remove the inline `style` attributes below the root, inline the images, and
return the children of the root (the content of `body.innerHTML`). -/
def sanitizeBody (read : String → Option Entry) (itemDir : String) (doc : Node) :
    List Node :=
  let body := (qselIncl (isTag "body") doc).getD doc
  let body1 := stripStyleEls body
  List.map (rewriteNode read itemDir)
    (List.map stripStyleAttrDeep (childrenOf body1))

mutual
/-- Serialization of one node, modelling `innerHTML` (void-element and
escaping details of the browser serializer are abstracted). -/
def serializeNode : Node → String
  | .text s => s
  | .elem t a cs =>
    "<" ++ t ++ String.join (a.map (fun p => " " ++ p.1 ++ "=\"" ++ p.2 ++ "\""))
      ++ ">" ++ serializeNodeList cs ++ "</" ++ t ++ ">"
def serializeNodeList : List Node → String
  | [] => ""
  | c :: rest => serializeNode c ++ serializeNodeList rest
end

/-- The not-found placeholder returned by the per-chapter `loadChapter`. -/
def notFoundPlaceholder : String :=
  "<p style=\"color:#9090a0;text-align:center;padding:2em;\">Chapter not found.</p>"

/-- Source `loadChapter(zip, spineItem)` of the per-chapter reader: a
missing or empty entry yields the not-found placeholder, otherwise the
sanitized inner markup of the content root. -/
def loadChapter (read : String → Option Entry) (it : ManItem) : String :=
  match read it.fullPath with
  | none => notFoundPlaceholder
  | some e =>
    if e.bytes.isEmpty then notFoundPlaceholder
    else serializeNodeList (sanitizeBody read (dirOf it.fullPath) e.parsed)

/-- Source `loadSpineItem(zip, item)` of the whole-book reader: identical
pipeline, but a missing or empty entry yields the empty string. -/
def loadSpineItemStr (read : String → Option Entry) (it : ManItem) : String :=
  match read it.fullPath with
  | none => ""
  | some e =>
    if e.bytes.isEmpty then ""
    else serializeNodeList (sanitizeBody read (dirOf it.fullPath) e.parsed)

/-- The section build loop of `loadEntireBook`: only content documents are
rendered, and a spine item whose normalized markup is blank contributes no
section. -/
def bookSectionsAux (read : String → Option Entry) :
    List (String × ManItem) → Nat → List (String × String × String)
  | [], _ => []
  | (_, it) :: rest, i =>
    if it.mediaType == "application/xhtml+xml" || it.mediaType == "text/html" then
      let html := loadSpineItemStr read it
      if trimStr html == "" then bookSectionsAux read rest (i + 1)
      else (s!"sec-{i}", html, it.fullPath) :: bookSectionsAux read rest (i + 1)
    else bookSectionsAux read rest (i + 1)

/-! ### Per-chapter navigation (source: `goToHref`) and label display -/

/-- Model of `Array.prototype.findIndex` (index offset threaded through). -/
def findIndexAux (p : (String × ManItem) → Bool) :
    List (String × ManItem) → Nat → Option Nat
  | [], _ => none
  | x :: rest, i => if p x then some i else findIndexAux p rest (i + 1)

/-- Source `goToHref(href)` of the per-chapter reader, as the index update
it performs: strip the fragment, find the first spine item whose resolved
path (fragment stripped) matches, use its index, keep the current index when
there is no match. -/
def goToChapter (spine : List (String × ManItem)) (cur : Nat) (href : String) : Nat :=
  match findIndexAux
      (fun s => stripFragment s.2.fullPath == stripFragment href) spine 0 with
  | some i => i
  | none => cur

/-- Model of the TOC rendering default `item.label || 'Untitled'`. -/
def displayLabel (l : String) : String :=
  if l == "" then "Untitled" else l

/-! ### Shared concrete sample data for witnesses -/

/-- A sample manifest item for a chapter document. -/
def sampleItem (p : String) : ManItem :=
  { href := p, mediaType := "application/xhtml+xml", properties := "", fullPath := p }

/-- A sample two-entry manifest. -/
def sampleManifest : Manifest :=
  [("c1", sampleItem "OEBPS/chap1.xhtml"), ("c2", sampleItem "OEBPS/chap2.xhtml")]

/-- A sample five-item spine whose index 4 is `OEBPS/text/ch3.xhtml`. -/
def sampleSpine : List (String × ManItem) :=
  [("s0", sampleItem "OEBPS/text/cover.xhtml"),
   ("s1", sampleItem "OEBPS/text/ch0.xhtml"),
   ("s2", sampleItem "OEBPS/text/ch1.xhtml"),
   ("s3", sampleItem "OEBPS/text/ch2.xhtml"),
   ("s4", sampleItem "OEBPS/text/ch3.xhtml")]

/-! ### Helper lemmas on the spine and index search -/

theorem findIndexAux_of_no_match (p : (String × ManItem) → Bool) :
    ∀ (l : List (String × ManItem)) (i : Nat),
      (∀ x ∈ l, p x = false) → findIndexAux p l i = none := by
  intro l
  induction l with
  | nil => intro i _; rfl
  | cons x rest ih =>
    intro i h
    have hx := h x (by simp)
    simp only [findIndexAux, hx, Bool.false_eq_true, if_false]
    exact ih (i + 1) (fun y hy => h y (by simp [hy]))

theorem findIndexAux_of_first_match (p : (String × ManItem) → Bool) :
    ∀ (l : List (String × ManItem)) (i j : Nat) (s : String × ManItem),
      l[j]? = some s → p s = true →
      (∀ k, k < j → ∀ s', l[k]? = some s' → p s' = false) →
      findIndexAux p l i = some (i + j) := by
  intro l
  induction l with
  | nil => intro i j s hj; simp at hj
  | cons x rest ih =>
    intro i j s hj hp hfirst
    cases j with
    | zero =>
      simp only [List.getElem?_cons_zero, Option.some_inj] at hj
      subst hj
      simp [findIndexAux, hp]
    | succ j' =>
      have hx : p x = false := hfirst 0 (Nat.succ_pos j') x (by simp)
      simp only [List.getElem?_cons_succ] at hj
      simp only [findIndexAux, hx, Bool.false_eq_true, if_false]
      have := ih (i + 1) j' s hj hp
        (fun k hk s' hs' => hfirst (k + 1) (Nat.succ_lt_succ hk) s' (by simpa using hs'))
      rw [this]
      congr 1
      omega


/-! ### Claim C10 -/

/-- C10: for every base path, resolving an empty reference returns the empty
string (not the directory of the base path and not the base path itself), so
a missing href attribute yields an empty resolved path. -/
theorem c10_empty_reference_resolves_empty : ∀ basePath, resolveHref basePath "" = "" := by
  intro basePath
  rfl

/-! ### Claim C3 -/

/-- C3: the parsed spine is exactly the document order of the itemrefs
restricted to those whose id is known in the manifest; an unknown id is
silently dropped and does not change which manifest items the subsequent
valid itemrefs map to, only their index. -/
theorem c3_spine_restriction : ∀ (m : Manifest) (idrefs : List String),
    ((parseSpine m idrefs).map Prod.fst
        = idrefs.filter (fun id => (mlookup m id).isSome))
    ∧ (∀ p ∈ parseSpine m idrefs, mlookup m p.1 = some p.2)
    ∧ (∀ id, mlookup m id = none → parseSpine m (id :: idrefs) = parseSpine m idrefs) := by
  intro m idrefs
  refine ⟨?_, ?_, ?_⟩
  · induction idrefs with
    | nil => rfl
    | cons id rest ih =>
      cases h : mlookup m id with
      | some it => simp [parseSpine, h, List.filter, ih]
      | none => simp [parseSpine, h, List.filter, ih]
  · induction idrefs with
    | nil => intro p hp; simp [parseSpine] at hp
    | cons id rest ih =>
      intro p hp
      cases h : mlookup m id with
      | some it =>
        simp only [parseSpine, h, List.mem_cons] at hp
        rcases hp with hp | hp
        · subst hp; exact h
        · exact ih p hp
      | none =>
        simp only [parseSpine, h] at hp
        exact ih p hp
  · intro id h
    simp [parseSpine, h]

/-- C3 witness: on a concrete manifest, a spine with an unknown idref in the
middle drops exactly that entry, and removing a leading unknown idref does
not change the parsed spine. -/
theorem c3_spine_restriction_witness :
    (parseSpine sampleManifest ["c1", "zz", "c2"]).map Prod.fst = ["c1", "c2"]
    ∧ parseSpine sampleManifest ("zz" :: ["c1", "c2"]) = parseSpine sampleManifest ["c1", "c2"] := by
  constructor
  · rw [(c3_spine_restriction sampleManifest ["c1", "zz", "c2"]).1]
    rfl
  · exact (c3_spine_restriction sampleManifest ["c1", "c2"]).2.2 "zz" rfl

/-! ### Claim C8 -/

/-- C8: per-chapter `goToHref` strips any fragment identifier, linearly
searches the spine for an item whose resolved path (fragment stripped)
matches, sets the index to the first match, and is a no-op when nothing
matches; in particular a spine holding `OEBPS/text/ch3.xhtml` at index 4
yields index 4 for `OEBPS/text/ch3.xhtml#section2`. -/
theorem c8_go_to_href : (∀ (spine : List (String × ManItem)) (cur : Nat) (href : String),
      ((∀ s ∈ spine, (stripFragment s.2.fullPath == stripFragment href) = false) →
        goToChapter spine cur href = cur)
      ∧ (∀ (j : Nat) (s : String × ManItem), spine[j]? = some s →
          (stripFragment s.2.fullPath == stripFragment href) = true →
          (∀ k, k < j → ∀ s', spine[k]? = some s' →
            (stripFragment s'.2.fullPath == stripFragment href) = false) →
          goToChapter spine cur href = j))
    ∧ goToChapter sampleSpine 0 "OEBPS/text/ch3.xhtml#section2" = 4 := by
  constructor
  · intro spine cur href
    constructor
    · intro h
      unfold goToChapter
      rw [findIndexAux_of_no_match _ spine 0 h]
    · intro j s hj hp hfirst
      unfold goToChapter
      rw [findIndexAux_of_first_match _ spine 0 j s hj hp hfirst]
      simp
  · rfl

/-- C8 witness: a link whose path matches nothing in the spine leaves the
current index untouched. -/
theorem c8_go_to_href_witness : goToChapter sampleSpine 2 "OEBPS/other.xhtml" = 2 := by
  apply ((c8_go_to_href.1 sampleSpine 2 "OEBPS/other.xhtml").1)
  decide

/-! ### Claim C9 -/

/-- A navigation point with a content source but no label element. -/
def unlabeledPoint : Node :=
  .elem "navPoint" [] [.elem "content" [("src", "ch1.xhtml")] []]

/-- C9 counterexample: a navigation point without a label yields a NavNode
whose label is the empty string, not "Untitled": the parser does not apply
the "Untitled" default. -/
theorem c9_label_counterexample :
    parseNcxPoints [unlabeledPoint] "OEBPS/toc.ncx"
      = [NavNode.mk "" "OEBPS/ch1.xhtml" []]
    ∧ ("" : String) ≠ "Untitled" := by
  exact ⟨rfl, by decide⟩

/-- C9 amended: a produced NavNode label is the trimmed source label text
with the empty string as the default for an absent or empty source label;
the "Untitled" default is applied at display time by the TOC renderer, which
substitutes "Untitled" exactly for empty stored labels. -/
theorem c9_label_default :
    (∀ (path : String) (np : Node), (parseNcxPoint path np).label = ncxLabel np)
    ∧ (∀ (path : String) (al : List (String × String)) (ccs rest : List Node) (a : Node),
        firstChildWithTag "a" ccs = some a →
        parseNavLis path (Node.elem "li" al ccs :: rest)
          = NavNode.mk (trimStr (textContent a))
              (resolveHref path ((getAttrL (attrsOf a) "href").getD ""))
              (parseFirstOl path ccs)
            :: parseNavLis path rest)
    ∧ displayLabel "" = "Untitled"
    ∧ (∀ l : String, (l == "") = false → displayLabel l = l) := by
  refine ⟨?_, ?_, rfl, ?_⟩
  · intro path np
    cases np with
    | text s => rfl
    | elem tg a cs => rfl
  · intro path al ccs rest a ha
    simp [parseNavLis, ha]
  · intro l hl
    simp [displayLabel, hl]

/-- C9 witness: a concrete nav list item with anchor text produces its
trimmed label, and an empty label is displayed as "Untitled". -/
theorem c9_label_default_witness :
    parseNavLis "OEBPS/nav.xhtml" [Node.elem "li" [] [Node.elem "a" [("href", "ch1.xhtml")] [Node.text "  Chapter One "]]]
      = [NavNode.mk "Chapter One" "OEBPS/ch1.xhtml" []]
    ∧ displayLabel (parseNcxPoint "OEBPS/toc.ncx" unlabeledPoint).label = "Untitled" := by
  constructor
  · rw [c9_label_default.2.1 "OEBPS/nav.xhtml" []
      [Node.elem "a" [("href", "ch1.xhtml")] [Node.text "  Chapter One "]] []
      (Node.elem "a" [("href", "ch1.xhtml")] [Node.text "  Chapter One "]) rfl]
    rfl
  · rw [c9_label_default.1 "OEBPS/toc.ncx" unlabeledPoint]
    rfl

/-! ### Claim C5 -/

/-- C5 counterexample: the whole-book normalizer `loadSpineItem` returns the
empty string, not a not-found placeholder, for a spine item whose resolved
path is absent from the archive, and the whole-book assembly then drops the
position instead of emitting a placeholder section. -/
theorem c5_placeholder_counterexample :
    loadSpineItemStr (zfind []) (sampleItem "OEBPS/text/ch1.xhtml") = ""
    ∧ notFoundPlaceholder ≠ ""
    ∧ bookSectionsAux (zfind []) [("c1", sampleItem "OEBPS/text/ch1.xhtml")] 0 = [] := by
  exact ⟨rfl, by decide, rfl⟩

/-- C5 amended: normalization never fails on a dangling spine reference, but
the two strategies degrade differently: the per-chapter `loadChapter`
returns the not-found placeholder string, while the whole-book
`loadSpineItem` returns the empty string (and the section is skipped). -/
theorem c5_dangling_reference : ∀ (read : String → Option Entry) (it : ManItem),
    read it.fullPath = none →
    loadChapter read it = notFoundPlaceholder ∧ loadSpineItemStr read it = "" := by
  intro read it h
  constructor
  · unfold loadChapter
    rw [h]
  · unfold loadSpineItemStr
    rw [h]

/-- C5 witness: on the empty archive, the per-chapter loader produces the
placeholder for a concrete dangling spine item. -/
theorem c5_dangling_reference_witness :
    loadChapter (zfind []) (sampleItem "OEBPS/text/ch9.xhtml") = notFoundPlaceholder := by
  exact (c5_dangling_reference (zfind []) (sampleItem "OEBPS/text/ch9.xhtml") rfl).1

/-! ### Claim C4 -/

/-- C4: when the manifest declares an NCX document whose parse yields at
least one entry, the table of contents is exactly that legacy result, and
the result does not depend on anything outside the NCX entry — in
particular the modern navigation document is never consulted: any archive
agreeing with the original on the NCX entry yields the same table of
contents. -/
theorem c4_ncx_precedence :
    ∀ (read read' : String → Option Entry) (mvals : List ManItem) (it : ManItem) (e : Entry),
      findNcxItem mvals = some it →
      read it.fullPath = some e →
      e.bytes.isEmpty = false →
      (parseNcxPoints (navMapNavPoints e.parsed) it.fullPath).isEmpty = false →
      read' it.fullPath = read it.fullPath →
      parseToc read mvals = parseNcxPoints (navMapNavPoints e.parsed) it.fullPath
      ∧ parseToc read' mvals = parseToc read mvals := by
  intro read read' mvals it e hfind hread hbytes htoc hagree
  have h1 : parseTocNcx read mvals = parseNcxPoints (navMapNavPoints e.parsed) it.fullPath := by
    simp [parseTocNcx, hfind, hread, hbytes]
  have h1' : parseTocNcx read' mvals = parseNcxPoints (navMapNavPoints e.parsed) it.fullPath := by
    simp [parseTocNcx, hfind, hagree, hread, hbytes]
  constructor
  · unfold parseToc
    rw [h1, htoc]
    simp
  · unfold parseToc
    rw [h1, h1', htoc]
    simp

/-- A concrete NCX document with one navigation point labelled "One". -/
def sampleNcxDoc : Node :=
  .elem "ncx" []
    [.elem "navMap" []
      [.elem "navPoint" []
        [.elem "navLabel" [] [.elem "text" [] [.text "One"]],
         .elem "content" [("src", "ch1.xhtml")] []]]]

/-- A concrete EPUB3 nav document pointing somewhere else entirely. -/
def sampleNavDocA : Node :=
  .elem "html" []
    [.elem "body" []
      [.elem "nav" [("epub:type", "toc")]
        [.elem "ol" []
          [.elem "li" [] [.elem "a" [("href", "other.xhtml")] [.text "Other"]]]]]]

/-- A second, different EPUB3 nav document. -/
def sampleNavDocB : Node :=
  .elem "html" []
    [.elem "body" []
      [.elem "nav" [("epub:type", "toc")]
        [.elem "ol" []
          [.elem "li" [] [.elem "a" [("href", "elsewhere.xhtml")] [.text "Elsewhere"]]]]]]

/-- A manifest declaring both an NCX document and a nav document. -/
def sampleTocManifestVals : List ManItem :=
  [{ href := "toc.ncx", mediaType := "application/x-dtbncx+xml", properties := "",
     fullPath := "OEBPS/toc.ncx" },
   { href := "nav.xhtml", mediaType := "application/xhtml+xml", properties := "nav",
     fullPath := "OEBPS/nav.xhtml" }]

/-- An archive holding the NCX document and the first nav document. -/
def sampleTocArchiveA : Archive :=
  [("OEBPS/toc.ncx", { bytes := [1], parsed := sampleNcxDoc }),
   ("OEBPS/nav.xhtml", { bytes := [1], parsed := sampleNavDocA })]

/-- The same archive with a different nav document. -/
def sampleTocArchiveB : Archive :=
  [("OEBPS/toc.ncx", { bytes := [1], parsed := sampleNcxDoc }),
   ("OEBPS/nav.xhtml", { bytes := [1], parsed := sampleNavDocB })]

/-- C4 witness: with both navigation sources present and a non-empty legacy
result, the table of contents is the legacy entry, and replacing the modern
navigation document changes nothing. -/
theorem c4_ncx_precedence_witness :
    parseToc (zfind sampleTocArchiveA) sampleTocManifestVals
      = [NavNode.mk "One" "OEBPS/ch1.xhtml" []]
    ∧ parseToc (zfind sampleTocArchiveB) sampleTocManifestVals
      = parseToc (zfind sampleTocArchiveA) sampleTocManifestVals := by
  have h := c4_ncx_precedence (zfind sampleTocArchiveA) (zfind sampleTocArchiveB)
    sampleTocManifestVals
    { href := "toc.ncx", mediaType := "application/x-dtbncx+xml", properties := "",
      fullPath := "OEBPS/toc.ncx" }
    { bytes := [1], parsed := sampleNcxDoc } rfl rfl rfl rfl rfl
  exact ⟨by rw [h.1]; rfl, h.2⟩

/-! ### Attribute lemmas -/

theorem getAttrL_setAttrL_self (k v : String) :
    ∀ a : List (String × String), getAttrL (setAttrL a k v) k = some v := by
  intro a
  induction a with
  | nil => simp [setAttrL, getAttrL]
  | cons p rest ih =>
    cases hp : (p.1 == k) with
    | true => simp [setAttrL, getAttrL, hp]
    | false =>
      simp only [setAttrL, hp, Bool.false_eq_true, if_false]
      simpa [getAttrL, List.find?_cons, hp] using ih

theorem getAttrL_setAttrL_ne (k v k' : String) (hk : (k' == k) = false) :
    ∀ a : List (String × String), getAttrL (setAttrL a k v) k' = getAttrL a k' := by
  have hk2 : (k == k') = false := by
    simp only [beq_eq_false_iff_ne] at hk ⊢
    exact fun h => hk h.symm
  intro a
  induction a with
  | nil => simp [setAttrL, getAttrL, hk2]
  | cons p rest ih =>
    cases hp : (p.1 == k) with
    | true =>
      have hp1 : p.1 = k := by simpa using hp
      have hp' : (p.1 == k') = false := by rw [hp1]; exact hk2
      simp [setAttrL, getAttrL, hp, hk2, hp']
    | false =>
      simp only [setAttrL, hp, Bool.false_eq_true, if_false]
      cases hp2 : (p.1 == k') with
      | true => simp [getAttrL, List.find?_cons, hp2]
      | false => simpa [getAttrL, List.find?_cons, hp2] using ih

/-! ### Claim C2 -/

/-- An archive whose only entry sits exactly at the directory path that an
empty `src` reference resolves to. -/
def emptySrcArchive : Archive :=
  [("OEBPS/text", { bytes := [7], parsed := Node.text "" })]

/-- C2 counterexample: an `img` with the empty (non-`data:`) reference
`src=""` inside `OEBPS/text/` is left untouched even though its resolved
target `OEBPS/text` is present in the archive, so the output reference is
neither an inline data representation of the resolved entry bytes nor
covered by the absent-target case. -/
theorem c2_image_counterexample :
    rewriteImgAttrs (zfind emptySrcArchive) "OEBPS/text/" [("src", "")] = [("src", "")]
    ∧ zfind emptySrcArchive (normalizePath ("OEBPS/text/" ++ ""))
        = some { bytes := [7], parsed := Node.text "" }
    ∧ strStartsWith "" "data:" = false
    ∧ ("" : String) ≠ dataUrl [7] := by
  exact ⟨rfl, rfl, rfl, by decide⟩

/-- C2 amended: every non-empty, non-`data:` `img` `src` reference is either
replaced by the inline data URL of the bytes of its resolved archive entry,
or, when the resolved target is absent, the attributes are left entirely
unchanged; the same dichotomy holds for the primary reference of an SVG
`image` element (`xlink:href`, falling back to `href`), with the data URL
written to both attribute spellings; and the reference of the scenario,
`../images/a.png` against `OEBPS/text/`, resolves to `OEBPS/images/a.png`. -/
theorem c2_image_rewrite_dichotomy :
    (∀ (read : String → Option Entry) (itemDir : String)
       (a : List (String × String)) (src : String),
       getAttrL a "src" = some src → (src == "") = false →
       strStartsWith src "data:" = false →
       (∀ e, read (normalizePath (itemDir ++ src)) = some e →
          getAttrL (rewriteImgAttrs read itemDir a) "src" = some (dataUrl e.bytes))
       ∧ (read (normalizePath (itemDir ++ src)) = none →
          rewriteImgAttrs read itemDir a = a))
    ∧ (∀ (read : String → Option Entry) (itemDir : String)
       (a : List (String × String)) (href : String),
       primaryRef a = some href → (href == "") = false →
       strStartsWith href "data:" = false →
       (∀ e, read (normalizePath (itemDir ++ href)) = some e →
          getAttrL (rewriteImageAttrs read itemDir a) "xlink:href" = some (dataUrl e.bytes)
          ∧ getAttrL (rewriteImageAttrs read itemDir a) "href" = some (dataUrl e.bytes))
       ∧ (read (normalizePath (itemDir ++ href)) = none →
          rewriteImageAttrs read itemDir a = a))
    ∧ normalizePath ("OEBPS/text/" ++ "../images/a.png") = "OEBPS/images/a.png" := by
  refine ⟨?_, ?_, rfl⟩
  · intro read itemDir a src hsrc hne hdata
    constructor
    · intro e he
      unfold rewriteImgAttrs
      rw [hsrc]
      simp only [hne, hdata, Bool.or_self, Bool.false_eq_true, if_false, he]
      exact getAttrL_setAttrL_self "src" (dataUrl e.bytes) a
    · intro he
      unfold rewriteImgAttrs
      rw [hsrc]
      simp only [hne, hdata, Bool.or_self, Bool.false_eq_true, if_false, he]
  · intro read itemDir a href hhref hne hdata
    constructor
    · intro e he
      unfold rewriteImageAttrs
      rw [hhref]
      simp only [hne, hdata, Bool.or_self, Bool.false_eq_true, if_false, he]
      constructor
      · rw [getAttrL_setAttrL_ne "href" (dataUrl e.bytes) "xlink:href" (by decide)]
        exact getAttrL_setAttrL_self "xlink:href" (dataUrl e.bytes) a
      · exact getAttrL_setAttrL_self "href" (dataUrl e.bytes) _
    · intro he
      unfold rewriteImageAttrs
      rw [hhref]
      simp only [hne, hdata, Bool.or_self, Bool.false_eq_true, if_false, he]

/-- An archive holding the image of the scenario. -/
def scenarioImageArchive : Archive :=
  [("OEBPS/images/a.png", { bytes := [1, 2, 3], parsed := Node.text "" })]

/-- C2 witness: the scenario reference `../images/a.png` inside
`OEBPS/text/` is rewritten to the data URL of the entry bytes when
`OEBPS/images/a.png` exists, and the attributes stay byte-identical when it
does not. -/
theorem c2_image_rewrite_dichotomy_witness :
    getAttrL (rewriteImgAttrs (zfind scenarioImageArchive) "OEBPS/text/"
        [("src", "../images/a.png")]) "src" = some (dataUrl [1, 2, 3])
    ∧ rewriteImgAttrs (zfind []) "OEBPS/text/" [("src", "../images/a.png")]
        = [("src", "../images/a.png")] := by
  constructor
  · exact (c2_image_rewrite_dichotomy.1 (zfind scenarioImageArchive) "OEBPS/text/"
      [("src", "../images/a.png")] "../images/a.png" rfl rfl rfl).1
      { bytes := [1, 2, 3], parsed := Node.text "" } rfl
  · exact (c2_image_rewrite_dichotomy.1 (zfind []) "OEBPS/text/"
      [("src", "../images/a.png")] "../images/a.png" rfl rfl rfl).2 rfl

/-! ### Claim C1 -/

mutual
/-- The cleanliness predicate of the normalized-fragment invariant: no
`style` element, no `link` with `rel="stylesheet"`, and no `style`
attribute, anywhere in the node. -/
def cleanNode : Node → Bool
  | .text _ => true
  | .elem t a cs =>
    !(t == "style") && !(t == "link" && getAttrL a "rel" == some "stylesheet")
      && (getAttrL a "style").isNone && cleanList cs
/-- The cleanliness predicate over a fragment (a node list). -/
def cleanList : List Node → Bool
  | [] => true
  | n :: l => cleanNode n && cleanList l
end

theorem getAttrL_removeAttrL_self (k : String) :
    ∀ a : List (String × String), getAttrL (removeAttrL a k) k = none := by
  intro a
  induction a with
  | nil => rfl
  | cons p rest ih =>
    cases hp : (p.1 == k) with
    | true =>
      simp only [removeAttrL, List.filter, hp]
      exact ih
    | false =>
      simp only [removeAttrL, getAttrL, List.filter, hp, Bool.not_false, List.find?_cons]
      exact ih

theorem getAttrL_removeAttrL_ne (k k' : String) (hk : (k' == k) = false) :
    ∀ a : List (String × String), getAttrL (removeAttrL a k) k' = getAttrL a k' := by
  intro a
  induction a with
  | nil => rfl
  | cons p rest ih =>
    cases hp : (p.1 == k) with
    | true =>
      have hp1 : p.1 = k := by simpa using hp
      have hp' : (p.1 == k') = false := by
        rw [hp1]
        simp only [beq_eq_false_iff_ne] at hk ⊢
        exact fun h => hk h.symm
      simpa [removeAttrL, getAttrL, List.filter, hp, List.find?_cons, hp'] using ih
    | false =>
      cases hp2 : (p.1 == k') with
      | true => simp [removeAttrL, getAttrL, List.filter, hp, List.find?_cons, hp2]
      | false => simpa [removeAttrL, getAttrL, List.filter, hp, List.find?_cons, hp2] using ih

theorem rewriteImgAttrs_preserves (read : String → Option Entry) (itemDir k : String)
    (hk : (k == "src") = false) (a : List (String × String)) :
    getAttrL (rewriteImgAttrs read itemDir a) k = getAttrL a k := by
  unfold rewriteImgAttrs
  cases getAttrL a "src" with
  | none => rfl
  | some src =>
    by_cases hc : (src == "" || strStartsWith src "data:") = true
    · simp [hc]
    · simp only [Bool.not_eq_true] at hc
      simp only [hc, Bool.false_eq_true, if_false]
      cases read (normalizePath (itemDir ++ src)) with
      | none => rfl
      | some e => exact getAttrL_setAttrL_ne "src" (dataUrl e.bytes) k hk a

theorem rewriteImageAttrs_preserves (read : String → Option Entry) (itemDir k : String)
    (hk1 : (k == "xlink:href") = false) (hk2 : (k == "href") = false)
    (a : List (String × String)) :
    getAttrL (rewriteImageAttrs read itemDir a) k = getAttrL a k := by
  unfold rewriteImageAttrs
  cases primaryRef a with
  | none => rfl
  | some href =>
    by_cases hc : (href == "" || strStartsWith href "data:") = true
    · simp [hc]
    · simp only [Bool.not_eq_true] at hc
      simp only [hc, Bool.false_eq_true, if_false]
      cases read (normalizePath (itemDir ++ href)) with
      | none => rfl
      | some e =>
        rw [getAttrL_setAttrL_ne "href" (dataUrl e.bytes) k hk2]
        exact getAttrL_setAttrL_ne "xlink:href" (dataUrl e.bytes) k hk1 a

theorem rewriteAttrsFor_preserves (read : String → Option Entry) (itemDir t k : String)
    (h1 : (k == "src") = false) (h2 : (k == "xlink:href") = false)
    (h3 : (k == "href") = false) (a : List (String × String)) :
    getAttrL (rewriteAttrsFor read itemDir t a) k = getAttrL a k := by
  unfold rewriteAttrsFor
  by_cases ht : (t == "img") = true
  · simp only [ht, if_true]
    exact rewriteImgAttrs_preserves read itemDir k h1 a
  · simp only [Bool.not_eq_true] at ht
    simp only [ht, Bool.false_eq_true, if_false]
    by_cases ht2 : (t == "image") = true
    · simp only [ht2, if_true]
      exact rewriteImageAttrs_preserves read itemDir k h2 h3 a
    · simp only [Bool.not_eq_true] at ht2
      simp only [ht2, Bool.false_eq_true, if_false]

/-- The per-node normalization composite as it acts on each retained child. -/
def childPipeline (read : String → Option Entry) (itemDir : String) (n : Node) : Node :=
  rewriteNode read itemDir (stripStyleAttrDeep n)

theorem cleanNode_childPipeline (read : String → Option Entry) (itemDir : String) :
    ∀ n : Node, isStyleNode n = false →
      cleanNode (childPipeline read itemDir (stripStyleEls n)) = true := by
  intro n
  induction n using Node.rec
    (motive_2 := fun l =>
      cleanList (rewriteNodeList read itemDir
        (stripStyleAttrDeepList (stripStyleElsList l))) = true) with
  | text s => intro _; rfl
  | elem t a cs ih =>
    intro hstyle
    simp only [isStyleNode, Bool.or_eq_false_iff] at hstyle
    simp only [childPipeline, stripStyleEls, stripStyleAttrDeep, rewriteNode, cleanNode]
    have hrel : getAttrL (rewriteAttrsFor read itemDir t (removeAttrL a "style")) "rel"
        = getAttrL a "rel" := by
      rw [rewriteAttrsFor_preserves read itemDir t "rel" rfl rfl rfl]
      exact getAttrL_removeAttrL_ne "style" "rel" rfl a
    have hsty : getAttrL (rewriteAttrsFor read itemDir t (removeAttrL a "style")) "style"
        = none := by
      rw [rewriteAttrsFor_preserves read itemDir t "style" rfl rfl rfl]
      exact getAttrL_removeAttrL_self "style" a
    rw [hrel, hsty]
    simp [hstyle.1, hstyle.2, ih]
  | nil => rfl
  | cons c l ihc ihl =>
    by_cases hc : isStyleNode c = true
    · simp only [stripStyleElsList, hc, if_true]
      exact ihl
    · simp only [Bool.not_eq_true] at hc
      simp only [stripStyleElsList, hc, Bool.false_eq_true, if_false,
        stripStyleAttrDeepList, rewriteNodeList, cleanList]
      rw [Bool.and_eq_true]
      exact ⟨ihc hc, ihl⟩

theorem stripStyleAttrDeepList_eq_map :
    ∀ l : List Node, stripStyleAttrDeepList l = List.map stripStyleAttrDeep l := by
  intro l
  induction l with
  | nil => rfl
  | cons c rest ih => simp [stripStyleAttrDeepList, ih]

theorem rewriteNodeList_eq_map (read : String → Option Entry) (itemDir : String) :
    ∀ l : List Node, rewriteNodeList read itemDir l = List.map (rewriteNode read itemDir) l := by
  intro l
  induction l with
  | nil => rfl
  | cons c rest ih => simp [rewriteNodeList, ih]

theorem cleanList_of_stripped (read : String → Option Entry) (itemDir : String) :
    ∀ l : List Node,
      cleanList (List.map (rewriteNode read itemDir)
        (List.map stripStyleAttrDeep (stripStyleElsList l))) = true := by
  intro l
  induction l with
  | nil => rfl
  | cons c rest ih =>
    by_cases hc : isStyleNode c = true
    · simpa [stripStyleElsList, hc] using ih
    · simp only [Bool.not_eq_true] at hc
      simp only [stripStyleElsList, hc, Bool.false_eq_true, if_false, List.map_cons,
        cleanList]
      rw [Bool.and_eq_true]
      exact ⟨cleanNode_childPipeline read itemDir c hc, ih⟩

/-- C1: for every archive, item directory and parsed chapter document, the
normalized fragment contains no `style` element, no `link` element with
`rel="stylesheet"`, and no inline `style` attribute, anywhere. -/
theorem c1_sanitized_fragment_clean :
    ∀ (read : String → Option Entry) (itemDir : String) (doc : Node),
      cleanList (sanitizeBody read itemDir doc) = true := by
  intro read itemDir doc
  unfold sanitizeBody
  cases hb : (qselIncl (isTag "body") doc).getD doc with
  | text s => rfl
  | elem t a cs =>
    simp only [stripStyleEls, childrenOf]
    exact cleanList_of_stripped read itemDir cs

/-- A deliberately dirty chapter document for the C1 witness. -/
def dirtyDoc : Node :=
  .elem "html" []
    [.elem "head" [] [.elem "style" [] [.text "p \x7b color: red \x7d"]],
     .elem "body" [("style", "margin:0")]
       [.elem "link" [("rel", "stylesheet"), ("href", "a.css")] [],
        .elem "p" [("style", "color:blue")] [.text "hi"],
        .elem "div" [] [.elem "style" [] [.text "x"]]]]

/-- C1 witness: the sanitizer output for a document full of styling is clean. -/
theorem c1_sanitized_fragment_clean_witness :
    cleanList (sanitizeBody (zfind []) "OEBPS/" dirtyDoc) = true :=
  c1_sanitized_fragment_clean (zfind []) "OEBPS/" dirtyDoc

/-- C10 witness: a concrete base path with an empty reference resolves to
the empty string. -/
theorem c10_empty_reference_resolves_empty_witness :
    resolveHref "OEBPS/content.opf" "" = "" :=
  c10_empty_reference_resolves_empty "OEBPS/content.opf"

/-! ### String and segment lemmas for the path resolver claims -/

theorem mk_append (u v : List Char) :
    String.mk (u ++ v) = String.mk u ++ String.mk v := rfl

theorem mk_eq_empty_iff (l : List Char) : String.mk l = "" ↔ l = [] := by
  constructor
  · intro h
    have := congrArg String.data h
    simpa using this
  · intro h
    rw [h]

theorem segsAux_append_slash :
    ∀ (l1 : List Char) (acc : List Char) (l2 : List Char),
      segsAux (l1 ++ '/' :: l2) acc = segsAux l1 acc ++ segsAux l2 [] := by
  intro l1
  induction l1 with
  | nil =>
    intro acc l2
    by_cases ha : acc.isEmpty = true
    · simp [segsAux, ha]
    · simp only [Bool.not_eq_true] at ha
      simp [segsAux, ha]
  | cons c rest ih =>
    intro acc l2
    by_cases hc : (c == '/') = true
    · by_cases ha : acc.isEmpty = true
      · simp [segsAux, hc, ha, ih]
      · simp only [Bool.not_eq_true] at ha
        simp [segsAux, hc, ha, ih]
    · simp only [Bool.not_eq_true] at hc
      simp [segsAux, hc, ih]

theorem segsAux_no_slash :
    ∀ (l : List Char), (∀ c ∈ l, (c == '/') = false) →
      ∀ acc : List Char,
        segsAux l acc
          = if acc.reverse ++ l = [] then [] else [String.mk (acc.reverse ++ l)] := by
  intro l
  induction l with
  | nil =>
    intro _ acc
    by_cases ha : acc.isEmpty = true
    · have : acc = [] := by simpa [List.isEmpty_iff] using ha
      simp [segsAux, ha, this]
    · simp only [Bool.not_eq_true] at ha
      have hne : acc ≠ [] := by simpa [List.isEmpty_iff] using ha
      simp [segsAux, ha, hne]
  | cons c rest ih =>
    intro h acc
    have hc : (c == '/') = false := h c (by simp)
    have hrest : ∀ x ∈ rest, (x == '/') = false := fun x hx => h x (by simp [hx])
    simp only [segsAux, hc, Bool.false_eq_true, if_false]
    rw [ih hrest (c :: acc)]
    simp

theorem segs_single_of_no_slash (s : String) (hne : s ≠ "")
    (h : ∀ c ∈ s.data, (c == '/') = false) : segs s = [s] := by
  unfold segs
  rw [segsAux_no_slash s.data h []]
  have hd : s.data ≠ [] := by
    intro hd
    exact hne (by cases s; simp_all)
  simp only [List.reverse_nil, List.nil_append]
  rw [if_neg hd]

theorem segs_append_of_dir (d y : String)
    (hd : d = "" ∨ ∃ l1, d.data = l1 ++ ['/']) :
    segs (d ++ y) = segs d ++ segs y := by
  rcases hd with hd | ⟨l1, hd⟩
  · subst hd
    rfl
  · unfold segs
    rw [String.data_append, hd]
    have h2 : (l1 ++ ['/']) ++ y.data = l1 ++ '/' :: y.data := by simp
    rw [h2, segsAux_append_slash l1 [] y.data]
    have h3 : l1 ++ ['/'] = l1 ++ '/' :: ([] : List Char) := rfl
    rw [h3, segsAux_append_slash l1 [] []]
    simp [segsAux]

theorem segs_mem_plain :
    ∀ (l acc : List Char), (∀ c ∈ acc, (c == '/') = false) →
      ∀ p ∈ segsAux l acc, p ≠ "" ∧ ∀ c ∈ p.data, (c == '/') = false := by
  intro l
  induction l with
  | nil =>
    intro acc hacc p hp
    by_cases ha : acc.isEmpty = true
    · simp [segsAux, ha] at hp
    · simp only [Bool.not_eq_true] at ha
      have hne : acc ≠ [] := by simpa [List.isEmpty_iff] using ha
      simp only [segsAux, ha, Bool.false_eq_true, if_false, List.mem_singleton] at hp
      subst hp
      refine ⟨?_, ?_⟩
      · simp only [ne_eq, mk_eq_empty_iff, List.reverse_eq_nil_iff]
        exact hne
      · intro c hc
        exact hacc c (by simpa using hc)
  | cons c rest ih =>
    intro acc hacc p hp
    by_cases hc : (c == '/') = true
    · by_cases ha : acc.isEmpty = true
      · simp only [segsAux, hc, if_true, ha] at hp
        exact ih [] (by simp) p hp
      · simp only [Bool.not_eq_true] at ha
        have hne : acc ≠ [] := by simpa [List.isEmpty_iff] using ha
        simp only [segsAux, hc, if_true, ha, Bool.false_eq_true, if_false,
          List.mem_cons] at hp
        rcases hp with hp | hp
        · subst hp
          refine ⟨?_, ?_⟩
          · simp only [ne_eq, mk_eq_empty_iff, List.reverse_eq_nil_iff]
            exact hne
          · intro x hx
            exact hacc x (by simpa using hx)
        · exact ih [] (by simp) p hp
    · simp only [Bool.not_eq_true] at hc
      simp only [segsAux, hc, Bool.false_eq_true, if_false] at hp
      refine ih (c :: acc) ?_ p hp
      intro x hx
      rcases List.mem_cons.mp hx with hx | hx
      · subst hx; exact hc
      · exact hacc x hx

theorem segs_mem (s : String) : ∀ p ∈ segs s, p ≠ "" ∧ ∀ c ∈ p.data, (c == '/') = false :=
  segs_mem_plain s.data [] (by simp)

theorem dropWhile_head_not (p : Char → Bool) :
    ∀ (l : List Char) (c : Char) (t : List Char),
      List.dropWhile p l = c :: t → p c = false := by
  intro l
  induction l with
  | nil => intro c t h; simp [List.dropWhile] at h
  | cons x rest ih =>
    intro c t h
    cases hx : p x with
    | true =>
      rw [List.dropWhile_cons_of_pos hx] at h
      exact ih c t h
    | false =>
      rw [List.dropWhile_cons_of_neg (by simp [hx])] at h
      cases h
      exact hx

theorem dropWhile_append_split (p : Char → Bool) :
    ∀ (u v : List Char),
      List.dropWhile p (u ++ v)
        = if (List.dropWhile p u).isEmpty then List.dropWhile p v
          else List.dropWhile p u ++ v := by
  intro u
  induction u with
  | nil => intro v; simp
  | cons x rest ih =>
    intro v
    cases hx : p x with
    | true =>
      rw [List.cons_append, List.dropWhile_cons_of_pos hx,
        List.dropWhile_cons_of_pos hx]
      exact ih v
    | false =>
      rw [List.cons_append, List.dropWhile_cons_of_neg (by simp [hx]),
        List.dropWhile_cons_of_neg (by simp [hx])]
      simp

theorem dirOf_empty_or_ends_slash (s : String) :
    dirOf s = "" ∨ ∃ l1, (dirOf s).data = l1 ++ ['/'] := by
  unfold dirOf dirOfData
  cases h : List.dropWhile (fun c => !(c == '/')) s.data.reverse with
  | nil => left; rfl
  | cons c t =>
    right
    have hc : (!(c == '/')) = false := dropWhile_head_not _ _ c t h
    have hc2 : c = '/' := by simpa using hc
    subst hc2
    exact ⟨t.reverse, by simp⟩

theorem dirOfData_isLeading (l : List Char) :
    ∃ t, l = dirOfData l ++ t ∧ ∀ c ∈ t, (c == '/') = false := by
  refine ⟨(List.takeWhile (fun c => !(c == '/')) l.reverse).reverse, ?_, ?_⟩
  · unfold dirOfData
    conv_lhs => rw [← List.reverse_reverse l]
    rw [← List.takeWhile_append_dropWhile (p := fun c => !(c == '/')) (l := l.reverse)]
    rw [List.reverse_append]
    rw [List.takeWhile_append_dropWhile]
  · intro c hc
    rw [List.mem_reverse] at hc
    have := List.mem_takeWhile_imp hc
    simpa using this

theorem dirOfData_append_slash (l1 l2 : List Char) :
    dirOfData ((l1 ++ ['/']) ++ l2) = (l1 ++ ['/']) ++ dirOfData l2 := by
  unfold dirOfData
  have hrev : ((l1 ++ ['/']) ++ l2).reverse = l2.reverse ++ '/' :: l1.reverse := by
    simp
  rw [hrev, dropWhile_append_split]
  cases h : List.dropWhile (fun c => !(c == '/')) l2.reverse with
  | nil =>
    simp only [h, List.isEmpty_nil, if_true]
    rw [List.dropWhile_cons_of_neg (by simp)]
    simp
  | cons c t =>
    simp only [h, List.isEmpty_cons, if_false]
    simp

theorem segs_dirOf (s : String) (hne : s ≠ "")
    (hlast : ¬ s.data.getLast? = some '/') :
    segs (dirOf s) = (segs s).dropLast := by
  cases h : List.dropWhile (fun c => !(c == '/')) s.data.reverse with
  | nil =>
    have hall : ∀ c ∈ s.data.reverse, (!(c == '/')) = true := by
      rw [← List.dropWhile_eq_nil_iff]
      exact h
    have hnos : ∀ c ∈ s.data, (c == '/') = false := by
      intro c hc
      have := hall c (by simpa using hc)
      simpa using this
    have hdir : dirOf s = "" := by
      unfold dirOf dirOfData
      rw [h]
      rfl
    rw [hdir, segs_single_of_no_slash s hne hnos]
    rfl
  | cons c t =>
    have hc : (!(c == '/')) = false := dropWhile_head_not _ _ c t h
    have hc2 : c = '/' := by simpa using hc
    subst hc2
    obtain ⟨tw, htw⟩ : ∃ tw, List.takeWhile (fun c => !(c == '/')) s.data.reverse = tw :=
      ⟨_, rfl⟩
    have hsplit : s.data.reverse = tw ++ '/' :: t := by
      conv_lhs => rw [← List.takeWhile_append_dropWhile (p := fun c => !(c == '/'))
        (l := s.data.reverse)]
      rw [h, htw]
    have hdecomp : s.data = t.reverse ++ '/' :: tw.reverse := by
      have h2 := congrArg List.reverse hsplit
      rw [List.reverse_reverse] at h2
      rw [h2]
      simp
    have hsufnos : ∀ x ∈ tw.reverse, (x == '/') = false := by
      intro x hx
      rw [List.mem_reverse, ← htw] at hx
      have := List.mem_takeWhile_imp hx
      simpa using this
    have hsufne : tw.reverse ≠ [] := by
      intro hempty
      rw [hempty] at hdecomp
      have : s.data.getLast? = some '/' := by
        rw [hdecomp]
        simp
      exact hlast this
    have hdir : (dirOf s).data = t.reverse ++ ['/'] := by
      unfold dirOf dirOfData
      rw [h]
      simp
    have hsegs : segs s = segsAux t.reverse [] ++ [String.mk tw.reverse] := by
      unfold segs
      rw [hdecomp, segsAux_append_slash]
      rw [segsAux_no_slash tw.reverse hsufnos []]
      simp [hsufne]
    have hsegsdir : segs (dirOf s) = segsAux t.reverse [] := by
      unfold segs
      rw [hdir]
      have hx : t.reverse ++ ['/'] = t.reverse ++ '/' :: ([] : List Char) := rfl
      rw [hx, segsAux_append_slash]
      simp [segsAux]
    rw [hsegs, hsegsdir]
    rw [List.dropLast_concat]

theorem segs_concat_slash (q : String) (hq : q ≠ "")
    (hnos : ∀ c ∈ q.data, (c == '/') = false) : segs (q ++ "/") = [q] := by
  unfold segs
  have hd : (q ++ "/").data = q.data ++ '/' :: ([] : List Char) := by
    rw [String.data_append]
  rw [hd, segsAux_append_slash]
  have h2 : segsAux [] ([] : List Char) = [] := rfl
  rw [h2, List.append_nil]
  have := segs_single_of_no_slash q hq hnos
  unfold segs at this
  exact this

theorem segs_joinSegs :
    ∀ L : List String, (∀ p ∈ L, p ≠ "" ∧ ∀ c ∈ p.data, (c == '/') = false) →
      segs (joinSegs L) = L := by
  intro L
  induction L with
  | nil => intro _; rfl
  | cons q rest ih =>
    intro h
    cases rest with
    | nil =>
      have hq := h q (by simp)
      simpa [joinSegs] using segs_single_of_no_slash q hq.1 hq.2
    | cons q' rest' =>
      have hq := h q (by simp)
      have hrest : ∀ p ∈ q' :: rest', p ≠ "" ∧ ∀ c ∈ p.data, (c == '/') = false :=
        fun p hp => h p (by simp [hp])
      have hjoin : joinSegs (q :: q' :: rest') = (q ++ "/") ++ joinSegs (q' :: rest') := by
        simp [joinSegs]
      rw [hjoin, segs_append_of_dir (q ++ "/") _ (Or.inr ⟨q.data, by
        rw [String.data_append]⟩)]
      rw [segs_concat_slash q hq.1 hq.2, ih hrest]
      rfl

theorem segs_dirOf_joinSegs :
    ∀ L : List String, (∀ p ∈ L, p ≠ "" ∧ ∀ c ∈ p.data, (c == '/') = false) →
      segs (dirOf (joinSegs L)) = L.dropLast := by
  intro L
  induction L with
  | nil => intro _; rfl
  | cons q rest ih =>
    intro h
    cases rest with
    | nil =>
      have hq := h q (by simp)
      have hall : List.dropWhile (fun c => !(c == '/')) q.data.reverse = [] := by
        rw [List.dropWhile_eq_nil_iff]
        intro c hc
        simpa using hq.2 c (by simpa using hc)
      have hdir : dirOf (joinSegs [q]) = "" := by
        show dirOf q = ""
        unfold dirOf dirOfData
        rw [hall]
        rfl
      rw [hdir]
      rfl
    | cons q' rest' =>
      have hq := h q (by simp)
      have hrest : ∀ p ∈ q' :: rest', p ≠ "" ∧ ∀ c ∈ p.data, (c == '/') = false :=
        fun p hp => h p (by simp [hp])
      have hjoin : joinSegs (q :: q' :: rest') = (q ++ "/") ++ joinSegs (q' :: rest') := by
        simp [joinSegs]
      have hdata : (joinSegs (q :: q' :: rest')).data
          = (q.data ++ ['/']) ++ (joinSegs (q' :: rest')).data := by
        rw [hjoin, String.data_append, String.data_append]
      have hdir : dirOf (joinSegs (q :: q' :: rest'))
          = (q ++ "/") ++ dirOf (joinSegs (q' :: rest')) := by
        unfold dirOf
        rw [hdata, dirOfData_append_slash]
        rw [mk_append]
        congr 1
      rw [hdir, segs_append_of_dir (q ++ "/") _ (Or.inr ⟨q.data, by
        rw [String.data_append]⟩)]
      rw [segs_concat_slash q hq.1 hq.2, ih hrest]
      rfl

theorem foldl_normStep_push :
    ∀ (L : List String) (st : List String),
      (∀ p ∈ L, (p == ".") = false ∧ (p == "..") = false) →
      List.foldl normStep st L = st ++ L := by
  intro L
  induction L with
  | nil => intro st _; simp
  | cons p rest ih =>
    intro st h
    have hp := h p (by simp)
    have hrest : ∀ x ∈ rest, (x == ".") = false ∧ (x == "..") = false :=
      fun x hx => h x (by simp [hx])
    simp only [List.foldl_cons, normStep, hp.1, hp.2, Bool.false_eq_true, if_false]
    rw [ih (st ++ [p]) hrest]
    simp

/-- The element property preserved by the normalization stack. -/
def plainSeg (q : String) : Prop :=
  q ≠ "" ∧ (q == ".") = false ∧ (q == "..") = false ∧ ∀ c ∈ q.data, (c == '/') = false

theorem foldl_normStep_plain_mem :
    ∀ (L : List String) (st : List String),
      (∀ q ∈ st, plainSeg q) →
      (∀ p ∈ L, p ≠ "" ∧ ∀ c ∈ p.data, (c == '/') = false) →
      ∀ q ∈ List.foldl normStep st L, plainSeg q := by
  intro L
  induction L with
  | nil => intro st hst _ q hq; exact hst q hq
  | cons p rest ih =>
    intro st hst h q hq
    have hp := h p (by simp)
    have hrest : ∀ x ∈ rest, x ≠ "" ∧ ∀ c ∈ x.data, (c == '/') = false :=
      fun x hx => h x (by simp [hx])
    simp only [List.foldl_cons] at hq
    by_cases h2 : (p == "..") = true
    · refine ih (st.dropLast) ?_ hrest q (by simpa [normStep, h2] using hq)
      intro x hx
      exact hst x ((List.dropLast_sublist st).subset hx)
    · simp only [Bool.not_eq_true] at h2
      by_cases h1 : (p == ".") = true
      · exact ih st hst hrest q (by simpa [normStep, h2, h1] using hq)
      · simp only [Bool.not_eq_true] at h1
        refine ih (st ++ [p]) ?_ hrest q (by simpa [normStep, h2, h1] using hq)
        intro x hx
        rcases List.mem_append.mp hx with hx | hx
        · exact hst x hx
        · have : x = p := by simpa using hx
          subst this
          exact ⟨hp.1, h1, h2, hp.2⟩

theorem foldl_normStep_concat_plain (st A : List String) (p : String)
    (h1 : (p == ".") = false) (h2 : (p == "..") = false) :
    List.foldl normStep st (A ++ [p]) = List.foldl normStep st A ++ [p] := by
  rw [List.foldl_append]
  simp [normStep, h1, h2]

theorem popLast_eq_dropLast : ∀ L : List String, popLast L = L.dropLast := by
  intro L
  induction L with
  | nil => rfl
  | cons x rest ih =>
    cases rest with
    | nil => rfl
    | cons y rest' =>
      show x :: popLast (y :: rest') = (x :: y :: rest').dropLast
      rw [ih]
      rfl

theorem specNormAux_eq_foldl :
    ∀ (parts st : List String),
      specNormAux st parts = List.foldl normStep st (parts.filter (fun p => !(p == ""))) := by
  intro parts
  induction parts with
  | nil => intro st; rfl
  | cons p rest ih =>
    intro st
    by_cases h0 : (p == "") = true
    · have hpe : p = "" := by simpa using h0
      subst hpe
      simp only [specNormAux, List.filter_cons]
      norm_num
      exact ih st
    · simp only [Bool.not_eq_true] at h0
      by_cases h1 : (p == ".") = true
      · have hpe : p = "." := by simpa using h1
        subst hpe
        simp only [specNormAux, List.filter_cons, List.foldl_cons, normStep]
        norm_num
        exact ih st
      · simp only [Bool.not_eq_true] at h1
        by_cases h2 : (p == "..") = true
        · have hpe : p = ".." := by simpa using h2
          subst hpe
          simp only [specNormAux, List.filter_cons, List.foldl_cons, normStep,
            popLast_eq_dropLast]
          norm_num
          exact ih st.dropLast
        · simp only [Bool.not_eq_true] at h2
          simp only [specNormAux, h0, h1, h2, Bool.false_eq_true, if_false,
            List.filter_cons, List.foldl_cons, normStep]
          norm_num [h0]
          have hstep : normStep st p = st ++ [p] := by simp [normStep, h1, h2]
          rw [hstep]
          exact ih (st ++ [p])

theorem segsAux_eq_filter_splitAllAux :
    ∀ (l acc : List Char),
      segsAux l acc = (splitAllAux l acc).filter (fun p => !(p == "")) := by
  intro l
  induction l with
  | nil =>
    intro acc
    by_cases ha : acc.isEmpty = true
    · have hacc : acc = [] := by simpa [List.isEmpty_iff] using ha
      subst hacc
      rfl
    · simp only [Bool.not_eq_true] at ha
      have hne : acc ≠ [] := by simpa [List.isEmpty_iff] using ha
      have hmkne : (String.mk acc.reverse == "") = false := by
        simp only [beq_eq_false_iff_ne, ne_eq, mk_eq_empty_iff, List.reverse_eq_nil_iff]
        exact hne
      simp [segsAux, splitAllAux, ha, List.filter, hmkne]
  | cons c rest ih =>
    intro acc
    by_cases hc : (c == '/') = true
    · by_cases ha : acc.isEmpty = true
      · have hacc : acc = [] := by simpa [List.isEmpty_iff] using ha
        subst hacc
        simp only [segsAux, hc, if_true, List.isEmpty_nil, splitAllAux, List.filter]
        rw [ih []]
        rfl
      · simp only [Bool.not_eq_true] at ha
        have hne : acc ≠ [] := by simpa [List.isEmpty_iff] using ha
        have hmkne : (String.mk acc.reverse == "") = false := by
          simp only [beq_eq_false_iff_ne, ne_eq, mk_eq_empty_iff, List.reverse_eq_nil_iff]
          exact hne
        simp only [segsAux, hc, if_true, ha, Bool.false_eq_true, if_false,
          splitAllAux, List.filter, hmkne, Bool.not_false]
        rw [ih []]
    · simp only [Bool.not_eq_true] at hc
      simp only [segsAux, hc, Bool.false_eq_true, if_false, splitAllAux]
      exact ih (c :: acc)

/-! ### Claim C6 -/

/-- C6: the source resolver agrees with the specification algorithm — a
reference beginning with `/` is container-rooted before normalization,
any other non-empty reference is resolved against the directory of the base
path, and normalization splits on `/`, drops empty and `.` segments and pops
one retained segment per `..` with popping past the root a no-op.  The empty
reference is the one case outside this rule: the source short-circuits it to
the empty string (claim C10). -/
theorem c6_resolver_matches_spec :
    ∀ (basePath href : String), href ≠ "" →
      resolveHref basePath href = resolveHrefSpec basePath href := by
  have key : ∀ x : String, normalizePath x = normalizePathSpec x := by
    intro x
    unfold normalizePath normalizePathSpec normSegs
    rw [specNormAux_eq_foldl (splitSlash x) []]
    unfold segs splitSlash
    rw [segsAux_eq_filter_splitAllAux x.data []]
  intro basePath href hne
  have hne2 : (href == "") = false := by simpa using hne
  unfold resolveHref resolveHrefSpec
  rw [if_neg (by simp [hne2])]
  cases hsw : strStartsWith href "/" with
  | true => simp [hsw, key]
  | false => simp [hsw, key]

/-- C6 witness: a concrete resolution, with `.` and `..` segments, agrees
between the source resolver and the specification algorithm. -/
theorem c6_resolver_matches_spec_witness :
    resolveHref "OEBPS/content.opf" "./text/../images/a.png"
      = resolveHrefSpec "OEBPS/content.opf" "./text/../images/a.png" :=
  c6_resolver_matches_spec "OEBPS/content.opf" "./text/../images/a.png" (by decide)

/-! ### Claim C7 -/

/-- Worker for `popSafe`: runs the normalization stack and reports whether
some `..` ever tried to pop an empty stack. -/
def popSafeAux : List String → List String → Bool
  | _, [] => true
  | st, p :: rest =>
    if p == ".." then
      match st with
      | [] => false
      | _ :: _ => popSafeAux st.dropLast rest
    else if p == "." then popSafeAux st rest
    else popSafeAux (st ++ [p]) rest

/-- Does the segment sequence normalize without ever popping past the root? -/
def popSafe (parts : List String) : Bool :=
  popSafeAux [] parts

/-- C7 counterexample: for `base = OEBPS/c.opf`, `a = x/..`, `b = y`, no
normalization involved ever pops past the root, yet
`resolve(resolve(base, a), b)` gives `y` while resolving the combined
relative path gives `OEBPS/x/y` — the two sides differ because `a` ends in a
`..` segment, not because of any over-popping. -/
theorem c7_assoc_counterexample :
    resolveHref (resolveHref "OEBPS/c.opf" "x/..") "y"
        ≠ resolveHref "OEBPS/c.opf" (dirOf "x/.." ++ "y")
    ∧ popSafe (segs (dirOf "OEBPS/c.opf" ++ "x/..")) = true
    ∧ popSafe (segs (dirOf "OEBPS/c.opf" ++ (dirOf "x/.." ++ "y"))) = true
    ∧ popSafe (segs (dirOf (resolveHref "OEBPS/c.opf" "x/..") ++ "y")) = true := by
  refine ⟨by decide, rfl, rfl, rfl⟩

/-- Does the reference end in a plain (non-`.` / non-`..`) segment with no
trailing slash?  This is the condition under which chained resolution
collapses to resolving the combined relative path. -/
def lastSegPlain (a : String) : Bool :=
  !(a == "") && !(a.data.getLast? == some '/')
    && (match (segs a).getLast? with
        | some p => !(p == ".") && !(p == "..")
        | none => false)

/-- C7 amended: for every base path and relative references `a` and `b`
with `b` non-empty, when `a` ends in a plain file-like segment (not `.`,
not `..`, no trailing slash), `resolve(resolve(base, a), b)` equals
`resolve(base, dirOf(a) + b)` — with no restriction on `..` over-popping,
which the stack clamps identically on both sides. -/
theorem normSegs_append (X Y : List String) :
    normSegs (X ++ Y) = List.foldl normStep (normSegs X) Y := by
  unfold normSegs
  rw [List.foldl_append]

theorem c7_resolve_assoc :
    ∀ (base a b : String),
      strStartsWith a "/" = false → strStartsWith b "/" = false → b ≠ "" →
      lastSegPlain a = true →
      resolveHref (resolveHref base a) b = resolveHref base (dirOf a ++ b) := by
  intro base a b hsa hsb hbne hplain
  simp only [lastSegPlain, Bool.and_eq_true, Bool.not_eq_true'] at hplain
  obtain ⟨⟨h1, h2⟩, h3⟩ := hplain
  have haneq : a ≠ "" := by simpa using h1
  have halast : ¬ a.data.getLast? = some '/' := by simpa using h2
  cases hA : (segs a).getLast? with
  | none => rw [hA] at h3; simp at h3
  | some p =>
    rw [hA] at h3
    simp only [Bool.and_eq_true, Bool.not_eq_true'] at h3
    obtain ⟨hp1, hp2⟩ := h3
    have hAne : segs a ≠ [] := by
      intro hnil
      rw [hnil] at hA
      simp at hA
    have hAdecomp : (segs a).dropLast ++ [p] = segs a := by
      have hg := List.getLast?_eq_getLast (segs a) hAne
      rw [hg, Option.some_inj] at hA
      rw [← hA]
      exact List.dropLast_append_getLast hAne
    -- both outer resolutions unfold to directory-relative normalization
    have e1 : resolveHref base a = normalizePath (dirOf base ++ a) := by
      unfold resolveHref
      rw [if_neg (by simp [h1]), if_neg (by simp [hsa])]
    have e2 : resolveHref (resolveHref base a) b
        = normalizePath (dirOf (normalizePath (dirOf base ++ a)) ++ b) := by
      rw [e1]
      unfold resolveHref
      rw [if_neg (by simpa using hbne), if_neg (by simp [hsb])]
    have hdbne : dirOf a ++ b ≠ "" := by
      intro hx
      have := congrArg String.data hx
      rw [String.data_append] at this
      simp only [List.append_eq_nil] at this
      exact hbne (by cases b; simp_all)
    have hslash : ∀ l : List Char, leadsWith ['/'] l
        = (match l with | [] => false | c :: _ => '/' == c) := by
      intro l
      cases l with
      | nil => rfl
      | cons c cs => simp [leadsWith]
    have hdbs : strStartsWith (dirOf a ++ b) "/" = false := by
      unfold strStartsWith at hsa hsb ⊢
      have hpre : "/".data = ['/'] := rfl
      rw [hpre] at hsa hsb ⊢
      rw [String.data_append, hslash]
      obtain ⟨t, hsplit, _⟩ := dirOfData_isLeading a.data
      cases hd : (dirOf a).data with
      | nil =>
        simp only [hd, List.nil_append]
        rw [hslash] at hsb
        exact hsb
      | cons c cs =>
        have hdata : (dirOf a).data = dirOfData a.data := rfl
        rw [hdata] at hd
        rw [hd] at hsplit
        rw [hslash] at hsa
        rw [hsplit] at hsa
        simpa using hsa
    have e3 : resolveHref base (dirOf a ++ b)
        = normalizePath (dirOf base ++ (dirOf a ++ b)) := by
      unfold resolveHref
      rw [if_neg (by simpa using hdbne), if_neg (by simp [hdbs])]
    rw [e2, e3]
    -- segment-level decompositions
    have hsegs1 : segs (dirOf base ++ a) = segs (dirOf base) ++ segs a :=
      segs_append_of_dir _ _ (dirOf_empty_or_ends_slash base)
    have hsegsR : segs (dirOf base ++ (dirOf a ++ b))
        = segs (dirOf base) ++ ((segs a).dropLast ++ segs b) := by
      rw [segs_append_of_dir _ _ (dirOf_empty_or_ends_slash base),
        segs_append_of_dir _ _ (dirOf_empty_or_ends_slash a),
        segs_dirOf a haneq halast]
    -- the stack after the first resolution
    have hS1 : normSegs (segs (dirOf base ++ a))
        = List.foldl normStep (normSegs (segs (dirOf base))) (segs a) := by
      rw [hsegs1]
      exact normSegs_append _ _
    have hS1plain : ∀ q ∈ normSegs (segs (dirOf base ++ a)), plainSeg q := by
      intro q hq
      refine foldl_normStep_plain_mem (segs (dirOf base ++ a)) [] (by simp) ?_ q hq
      intro x hx
      exact segs_mem _ x hx
    have hS1drop : (normSegs (segs (dirOf base ++ a))).dropLast
        = List.foldl normStep (normSegs (segs (dirOf base))) ((segs a).dropLast) := by
      rw [hS1]
      conv_lhs => rw [← hAdecomp]
      rw [foldl_normStep_concat_plain _ _ p hp1 hp2, List.dropLast_concat]
    -- the directory of the first result
    have hdirS1 : segs (dirOf (normalizePath (dirOf base ++ a)))
        = (normSegs (segs (dirOf base ++ a))).dropLast := by
      unfold normalizePath
      refine segs_dirOf_joinSegs _ ?_
      intro q hq
      have hplq := hS1plain q hq
      exact ⟨hplq.1, hplq.2.2.2⟩
    -- reduce both sides to the same fold
    have hfin : normSegs (segs (dirOf (normalizePath (dirOf base ++ a)) ++ b))
        = normSegs (segs (dirOf base ++ (dirOf a ++ b))) := by
      rw [segs_append_of_dir _ _
        (dirOf_empty_or_ends_slash (normalizePath (dirOf base ++ a)))]
      rw [hdirS1, hsegsR]
      rw [normSegs_append, normSegs_append, List.foldl_append]
      have hpushed : normSegs ((normSegs (segs (dirOf base ++ a))).dropLast)
          = (normSegs (segs (dirOf base ++ a))).dropLast := by
        unfold normSegs
        rw [foldl_normStep_push _ [] ?push]
        · rw [List.nil_append]
        case push =>
          intro q hq
          have hplq := hS1plain q ((List.dropLast_sublist _).subset hq)
          exact ⟨hplq.2.1, hplq.2.2.1⟩
      rw [hpushed, hS1drop]
    show joinSegs (normSegs (segs (dirOf (normalizePath (dirOf base ++ a)) ++ b)))
        = joinSegs (normSegs (segs (dirOf base ++ (dirOf a ++ b))))
    rw [hfin]

/-- C7 witness: a concrete chained resolution with a `..` in the second
reference agrees with resolving the combined relative path. -/
theorem c7_resolve_assoc_witness :
    resolveHref (resolveHref "OEBPS/content.opf" "text/ch1.xhtml") "../images/pic.png"
      = resolveHref "OEBPS/content.opf" (dirOf "text/ch1.xhtml" ++ "../images/pic.png") :=
  c7_resolve_assoc "OEBPS/content.opf" "text/ch1.xhtml" "../images/pic.png"
    rfl rfl (by decide) rfl
